import Mathlib

/-!
Shallow embedding of the OpenCallsBot ingestion pipeline (`ingest.py`, `utils.py`):
the stub-API fetcher, the budget backfill, the PDF deadline miner, the
chunker/indexer and the merge engine, together with theorems settling the
specification claims about them.
-/

set_option maxHeartbeats 1000000

namespace RIF

/-- Calendar date, modelling Python `datetime.date` values. -/
structure Date where
  year : Nat
  month : Nat
  day : Nat
deriving DecidableEq, Repr

/-- Python `date` strict comparison (lexicographic on year, month, day). -/
def dateLt (a b : Date) : Prop :=
  a.year < b.year ∨
    (a.year = b.year ∧ (a.month < b.month ∨ (a.month = b.month ∧ a.day < b.day)))

instance (a b : Date) : Decidable (dateLt a b) := by unfold dateLt; infer_instance

/-- Python `date` comparison `<=`. -/
def dateLe (a b : Date) : Prop := dateLt a b ∨ a = b

instance (a b : Date) : Decidable (dateLe a b) := by unfold dateLe; infer_instance

theorem dateLt_trans {a b c : Date} (h1 : dateLt a b) (h2 : dateLt b c) : dateLt a c := by
  obtain ⟨ay, am, ad⟩ := a; obtain ⟨by1, bm, bd⟩ := b; obtain ⟨cy, cm, cd⟩ := c
  simp only [dateLt] at h1 h2 ⊢
  omega

theorem dateLt_irrefl (a : Date) : ¬ dateLt a a := by
  obtain ⟨ay, am, ad⟩ := a
  simp only [dateLt]
  omega

theorem dateLe_trans {a b c : Date} (h1 : dateLe a b) (h2 : dateLe b c) : dateLe a c := by
  rcases h1 with h1 | rfl
  · rcases h2 with h2 | rfl
    · exact Or.inl (dateLt_trans h1 h2)
    · exact Or.inl h1
  · exact h2

theorem dateLe_total (a b : Date) : dateLe a b ∨ dateLe b a := by
  obtain ⟨ay, am, ad⟩ := a; obtain ⟨by1, bm, bd⟩ := b
  simp only [dateLe, dateLt, Date.mk.injEq]
  omega

theorem dateLt_asymm {a b : Date} (h : dateLt a b) : ¬ dateLt b a := by
  obtain ⟨ay, am, ad⟩ := a; obtain ⟨by1, bm, bd⟩ := b
  simp only [dateLt] at h ⊢
  omega

theorem dateLt_or_ge (a b : Date) : dateLt a b ∨ dateLe b a := by
  obtain ⟨ay, am, ad⟩ := a; obtain ⟨by1, bm, bd⟩ := b
  simp only [dateLe, dateLt, Date.mk.injEq]
  omega

/-- Gregorian leap-year test (as used by Python's `datetime`). -/
def isLeap (y : Nat) : Bool := y % 4 == 0 && (y % 100 != 0 || y % 400 == 0)

/-- Days in a month of the Gregorian calendar. -/
def daysInMonth (y m : Nat) : Nat :=
  if m = 2 then (if isLeap y then 29 else 28)
  else if m = 4 ∨ m = 6 ∨ m = 9 ∨ m = 11 then 30
  else 31

/-- Whether `y-m-d` is a real calendar date (Python `datetime.date` would accept it). -/
def validDate (y m d : Nat) : Bool :=
  decide (1 ≤ m ∧ m ≤ 12 ∧ 1 ≤ d ∧ d ≤ daysInMonth y m)

/-- Build a date, failing (like the `datetime.date` constructor raising) when invalid. -/
def mkValidDate (y m d : Nat) : Option Date :=
  if validDate y m d then some ⟨y, m, d⟩ else none

/-- Python `\s` / `str.strip` whitespace characters (ASCII subset). -/
def pySpace (c : Char) : Bool :=
  c == ' ' || c == '\t' || c == '\n' || c == '\r' || c == '\x0b' || c == '\x0c'

/-- Python `str.strip()` on a list of characters. -/
def pyStrip (l : List Char) : List Char :=
  ((l.dropWhile pySpace).reverse.dropWhile pySpace).reverse

/-- Numeric value of a decimal digit character. -/
def digitVal (c : Char) : Nat := c.toNat - 48

/-- Numeric value of a list of decimal digit characters. -/
def digitsVal (l : List Char) : Nat := l.foldl (fun n c => 10 * n + digitVal c) 0

/-- `normalize_code` from `ingest.py`: replace `/` and `\` by `_`.
Both Python `str.replace` calls substitute single characters, so the composition
is a character map. -/
def normalize_code (s : List Char) : List Char :=
  s.map (fun c => if c = '/' || c = '\\' then '_' else c)

/-- Modelled subset of Python `datetime.fromisoformat` restricted to the plain
`YYYY-MM-DD` form (the shape the stub API emits); any other shape parses to
`none`, which matches the `except` branch of `iso_to_date` catching the raise. -/
def parseIsoChars (l : List Char) : Option Date :=
  match l with
  | [y1, y2, y3, y4, h1, m1, m2, h2, d1, d2] =>
    if y1.isDigit && y2.isDigit && y3.isDigit && y4.isDigit && h1 == '-' &&
        m1.isDigit && m2.isDigit && h2 == '-' && d1.isDigit && d2.isDigit then
      mkValidDate (digitsVal [y1, y2, y3, y4]) (digitsVal [m1, m2]) (digitsVal [d1, d2])
    else none
  | _ => none

/-- `iso_to_date` from `ingest.py`: `None` input (and any parse failure) yields `None`. -/
def iso_to_date : Option (List Char) → Option Date
  | none => none
  | some s => parseIsoChars s

/-! ### Chunker / Embedder / Indexer (`ingest.py` lines 160-164, `utils.py` `embed_text`)

The loop `for i in range(0, len(txt), CHUNK_SZ): chunk = txt[i:i+CHUNK_SZ].strip(); ...`
is the fold below over the consecutive `CHUNK_SZ`-wide windows of the text.
The external sentence-transformer `embed_text` is a parameter `embed`; the code
computes the vector purely from the chunk text. -/

/-- `CHUNK_SZ` from `ingest.py`. -/
def CHUNK_SZ : Nat := 400

/-- The consecutive non-overlapping windows `txt[i:i+C]` for `i = 0, C, 2C, ...`,
exactly the slices visited by `range(0, len(txt), CHUNK_SZ)`. -/
def chunksOf (C : Nat) (txt : List Char) : List (List Char) :=
  if h : C = 0 ∨ txt = [] then []
  else txt.take C :: chunksOf C (txt.drop C)
termination_by txt.length
decreasing_by
  simp only [List.length_drop]
  have hC : C ≠ 0 := fun hc => h (Or.inl hc)
  have ht : txt ≠ [] := fun hc => h (Or.inr hc)
  have : 0 < txt.length := List.length_pos.mpr ht
  omega

/-- One metadata record `{"text": chunk, "source": pdf.name}`. -/
structure ChunkMeta where
  text : List Char
  source : List Char
deriving DecidableEq, Repr

/-- The shared similarity index (`idx`, list of added vectors in order) and the
parallel metadata list (`meta`). -/
structure IndexState (E : Type) where
  idx : List E
  meta : List ChunkMeta

instance {E : Type} [DecidableEq E] : DecidableEq (IndexState E) := by
  intro a b
  obtain ⟨i1, m1⟩ := a; obtain ⟨i2, m2⟩ := b
  have : Decidable (i1 = i2 ∧ m1 = m2) := instDecidableAnd
  refine decidable_of_iff (i1 = i2 ∧ m1 = m2) ?_
  constructor
  · rintro ⟨rfl, rfl⟩; rfl
  · intro h; cases h; exact ⟨rfl, rfl⟩

/-- Body of the chunk loop: strip the window, skip it when empty, otherwise
append the embedding to the index and the record to the metadata list. -/
def ingestChunk {E : Type} (embed : List Char → E) (source : List Char)
    (st : IndexState E) (w : List Char) : IndexState E :=
  let chunk := pyStrip w
  if chunk = [] then st
  else ⟨st.idx ++ [embed chunk], st.meta ++ [⟨chunk, source⟩]⟩

/-- Processing one document: fold the chunk-loop body over its windows. -/
def ingestDoc {E : Type} (embed : List Char → E) (C : Nat) (source txt : List Char)
    (st : IndexState E) : IndexState E :=
  (chunksOf C txt).foldl (ingestChunk embed source) st

/-- Processing a run's documents (`for pdf in PDF_DIR.glob(...)`), each a
`(name, extracted text)` pair. -/
def ingestDocs {E : Type} (embed : List Char → E) (C : Nat)
    (docs : List (List Char × List Char)) (st : IndexState E) : IndexState E :=
  docs.foldl (fun st doc => ingestDoc embed C doc.1 doc.2 st) st

/-- The index/metadata parallelism invariant: equal sizes, and the vector paired
with each metadata record is the embedding of that record's chunk text. -/
def IndexInv {E : Type} (embed : List Char → E) (st : IndexState E) : Prop :=
  st.idx.length = st.meta.length ∧ ∀ p ∈ st.idx.zip st.meta, p.1 = embed p.2.text

instance {E : Type} [DecidableEq E] (embed : List Char → E) (st : IndexState E) :
    Decidable (IndexInv embed st) := by
  unfold IndexInv; infer_instance

/-- Window is entirely whitespace. -/
def allSpace (w : List Char) : Bool := w.all pySpace

theorem chunksOf_nil (C : Nat) : chunksOf C [] = [] := by
  rw [chunksOf]; simp

theorem chunksOf_cons {C : Nat} {txt : List Char} (hC : C ≠ 0) (ht : txt ≠ []) :
    chunksOf C txt = txt.take C :: chunksOf C (txt.drop C) := by
  rw [chunksOf]
  simp [hC, ht]

/-- Recursion principle following the window decomposition. -/
theorem chunksOf_rec {C : Nat} (hC : C ≠ 0) (P : List Char → Prop)
    (h0 : P []) (hstep : ∀ txt, txt ≠ [] → P (txt.drop C) → P txt)
    (txt : List Char) : P txt := by
  have H : ∀ n, ∀ t : List Char, t.length ≤ n → P t := by
    intro n
    induction n with
    | zero =>
      intro t ht
      have h1 : t = [] := List.eq_nil_of_length_eq_zero (Nat.le_zero.mp ht)
      rw [h1]; exact h0
    | succ n ih =>
      intro t ht
      rcases eq_or_ne t [] with rfl | hne
      · exact h0
      · refine hstep t hne (ih _ ?_)
        simp only [List.length_drop]
        have hCpos : 0 < C := Nat.pos_of_ne_zero hC
        omega
  exact H txt.length txt le_rfl

theorem chunksOf_flatten {C : Nat} (hC : C ≠ 0) (txt : List Char) :
    (chunksOf C txt).flatten = txt := by
  refine chunksOf_rec hC (fun t => (chunksOf C t).flatten = t) (by simp [chunksOf_nil]) ?_ txt
  intro t hne ih
  rw [chunksOf_cons hC hne]
  simp [ih]

theorem chunksOf_length {C : Nat} (hC : C ≠ 0) (txt : List Char) :
    (chunksOf C txt).length = (txt.length + C - 1) / C := by
  refine chunksOf_rec hC (fun t => (chunksOf C t).length = (t.length + C - 1) / C) ?_ ?_ txt
  · show (chunksOf C []).length = (([] : List Char).length + C - 1) / C
    rw [chunksOf_nil]
    simp only [List.length_nil, List.length_nil, Nat.zero_add]
    rw [Nat.div_eq_of_lt (by omega)]
  · intro t hne ih
    rw [chunksOf_cons hC hne]
    simp only [List.length_cons, ih, List.length_drop]
    have h1 : 0 < t.length := List.length_pos.mpr hne
    have hCpos : 0 < C := Nat.pos_of_ne_zero hC
    rcases Nat.le_total t.length C with hle | hge
    · have e0 : t.length - C = 0 := by omega
      rw [e0]
      rw [Nat.div_eq_of_lt (by omega)]
      have e1 : (t.length + C - 1) / C = 1 := Nat.div_eq_of_lt_le (by omega) (by omega)
      rw [e1]
    · have e1 : t.length - C + C - 1 = t.length - 1 := by omega
      have e2 : t.length + C - 1 = (t.length - 1) + C := by omega
      rw [e1, e2, Nat.add_div_right _ hCpos]

theorem chunksOf_dropLast_length {C : Nat} (hC : C ≠ 0) (txt : List Char) :
    ∀ w ∈ (chunksOf C txt).dropLast, w.length = C := by
  refine chunksOf_rec hC (fun t => ∀ w ∈ (chunksOf C t).dropLast, w.length = C)
    (by simp [chunksOf_nil]) ?_ txt
  intro t hne ih w hw
  rw [chunksOf_cons hC hne] at hw
  rcases eq_or_ne (t.drop C) [] with hd | hd
  · rw [hd, chunksOf_nil] at hw
    simp at hw
  · have hcons := chunksOf_cons hC hd
    rw [hcons] at hw
    simp only [List.dropLast_cons₂, List.mem_cons] at hw
    rcases hw with rfl | hw
    · have hlen : C < t.length := by
        have h2 : 0 < (t.drop C).length := List.length_pos.mpr hd
        simp only [List.length_drop] at h2
        omega
      simp [List.length_take]
      omega
    · exact ih w (by rw [hcons]; exact hw)

theorem chunksOf_mem_length {C : Nat} (hC : C ≠ 0) (txt : List Char) :
    ∀ w ∈ chunksOf C txt, w ≠ [] ∧ w.length ≤ C := by
  refine chunksOf_rec hC (fun t => ∀ w ∈ chunksOf C t, w ≠ [] ∧ w.length ≤ C)
    (by simp [chunksOf_nil]) ?_ txt
  intro t hne ih w hw
  rw [chunksOf_cons hC hne] at hw
  rcases List.mem_cons.mp hw with rfl | hw
  · refine ⟨?_, by simp [List.length_take]⟩
    simp only [ne_eq, List.take_eq_nil_iff]
    push_neg
    exact ⟨hC, hne⟩
  · exact ih w hw

theorem pyStrip_eq_nil {l : List Char} : pyStrip l = [] ↔ allSpace l = true := by
  unfold pyStrip allSpace
  rw [List.reverse_eq_nil_iff, List.dropWhile_eq_nil_iff, List.all_eq_true]
  constructor
  · intro h c hc
    have hsplit := List.takeWhile_append_dropWhile (p := pySpace) (l := l)
    rw [← hsplit] at hc
    rcases List.mem_append.mp hc with hc | hc
    · exact List.mem_takeWhile_imp hc
    · exact h c (List.mem_reverse.mpr hc)
  · intro h c hc
    have hc2 : c ∈ l.dropWhile pySpace := List.mem_reverse.mp hc
    exact h c ((List.dropWhile_sublist (p := pySpace) (l := l)).subset hc2)

theorem pyStrip_sublist (l : List Char) : List.Sublist (pyStrip l) l := by
  unfold pyStrip
  have h1 : List.Sublist (l.dropWhile pySpace) l := List.dropWhile_sublist _
  have h2 : List.Sublist ((l.dropWhile pySpace).reverse.dropWhile pySpace)
      (l.dropWhile pySpace).reverse := List.dropWhile_sublist _
  have h3 := h2.reverse
  rw [List.reverse_reverse] at h3
  exact h3.trans h1

theorem pyStrip_length_le (l : List Char) : (pyStrip l).length ≤ l.length :=
  (pyStrip_sublist l).length_le

theorem ingest_fold_lengths {E : Type} (embed : List Char → E) (src : List Char) :
    ∀ (ws : List (List Char)) (st : IndexState E),
      ((ws.foldl (ingestChunk embed src) st).meta.length
          = st.meta.length + ws.countP (fun w => !allSpace w))
        ∧ ((ws.foldl (ingestChunk embed src) st).idx.length
          = st.idx.length + ws.countP (fun w => !allSpace w)) := by
  intro ws
  induction ws with
  | nil => intro st; simp
  | cons w ws ih =>
    intro st
    simp only [List.foldl_cons, List.countP_cons]
    by_cases hw : pyStrip w = []
    · have ha : allSpace w = true := pyStrip_eq_nil.mp hw
      have hst : ingestChunk embed src st w = st := by simp [ingestChunk, hw]
      rw [hst]
      rcases ih st with ⟨ih1, ih2⟩
      constructor
      · rw [ih1]; simp [ha]
      · rw [ih2]; simp [ha]
    · have ha : allSpace w ≠ true := fun h => hw (pyStrip_eq_nil.mpr h)
      have hst : ingestChunk embed src st w
          = ⟨st.idx ++ [embed (pyStrip w)], st.meta ++ [⟨pyStrip w, src⟩]⟩ := by
        simp [ingestChunk, hw]
      rw [hst]
      rcases ih ⟨st.idx ++ [embed (pyStrip w)], st.meta ++ [⟨pyStrip w, src⟩]⟩ with ⟨ih1, ih2⟩
      constructor
      · rw [ih1]; simp [ha]; omega
      · rw [ih2]; simp [ha]; omega

theorem ingest_fold_meta_mem {E : Type} (embed : List Char → E) (src : List Char) (C : Nat) :
    ∀ (ws : List (List Char)) (st : IndexState E),
      (∀ w ∈ ws, w.length ≤ C) →
      ∀ m ∈ (ws.foldl (ingestChunk embed src) st).meta,
        m ∈ st.meta ∨ (m.text ≠ [] ∧ m.text.length ≤ C) := by
  intro ws
  induction ws with
  | nil => intro st _ m hm; exact Or.inl hm
  | cons w ws ih =>
    intro st hws m hm
    simp only [List.foldl_cons] at hm
    have hwlen : w.length ≤ C := hws w (List.mem_cons_self _ _)
    rcases ih (ingestChunk embed src st w)
        (fun x hx => hws x (List.mem_cons_of_mem _ hx)) m hm with hmem | hp
    · unfold ingestChunk at hmem
      by_cases hw : pyStrip w = []
      · simp only [hw, if_pos rfl] at hmem
        exact Or.inl hmem
      · simp only [hw, if_neg hw] at hmem
        rcases List.mem_append.mp hmem with hmem | hmem
        · exact Or.inl hmem
        · have he : m = ⟨pyStrip w, src⟩ := by simpa using hmem
          refine Or.inr ?_
          rw [he]
          exact ⟨hw, le_trans (pyStrip_length_le w) hwlen⟩
    · exact Or.inr hp

theorem ingestChunk_inv {E : Type} (embed : List Char → E) (src : List Char)
    (st : IndexState E) (w : List Char) (h : IndexInv embed st) :
    IndexInv embed (ingestChunk embed src st w) := by
  by_cases hw : pyStrip w = []
  · have hst : ingestChunk embed src st w = st := by simp [ingestChunk, hw]
    rw [hst]; exact h
  · have hst : ingestChunk embed src st w
        = ⟨st.idx ++ [embed (pyStrip w)], st.meta ++ [⟨pyStrip w, src⟩]⟩ := by
      simp [ingestChunk, hw]
    rw [hst]
    rcases h with ⟨hlen, hzip⟩
    constructor
    · simp [hlen]
    · intro p hp
      simp only at hp
      rw [List.zip_append hlen] at hp
      rcases List.mem_append.mp hp with hp | hp
      · exact hzip p hp
      · have hpe : p = (embed (pyStrip w), ⟨pyStrip w, src⟩) := by simpa using hp
        rw [hpe]

theorem ingestDoc_inv {E : Type} (embed : List Char → E) (C : Nat)
    (src txt : List Char) (st : IndexState E) (h : IndexInv embed st) :
    IndexInv embed (ingestDoc embed C src txt st) := by
  unfold ingestDoc
  generalize chunksOf C txt = ws
  induction ws generalizing st with
  | nil => simpa using h
  | cons w ws ih =>
    simp only [List.foldl_cons]
    exact ih _ (ingestChunk_inv embed src st w h)

/-- **C3.** Index/metadata parallelism: if the shared index and metadata list are
parallel (equal sizes, each vector the embedding of the record at the same
position) before the chunker runs, they stay parallel after any run of the
chunk/embed/append loop over any documents, and the vector at position `i`
is the embedding of the chunk text of the metadata record at position `i`. -/
theorem index_meta_parallel {E : Type} (embed : List Char → E) (C : Nat)
    (docs : List (List Char × List Char)) (st : IndexState E)
    (h : IndexInv embed st) :
    IndexInv embed (ingestDocs embed C docs st)
      ∧ ∀ (i : Nat) (h1 : i < (ingestDocs embed C docs st).idx.length)
          (h2 : i < (ingestDocs embed C docs st).meta.length),
          (ingestDocs embed C docs st).idx[i]
            = embed (ingestDocs embed C docs st).meta[i].text := by
  have hinv : IndexInv embed (ingestDocs embed C docs st) := by
    unfold ingestDocs
    induction docs generalizing st with
    | nil => simpa using h
    | cons d ds ih =>
      simp only [List.foldl_cons]
      exact ih _ (ingestDoc_inv embed C d.1 d.2 st h)
  refine ⟨hinv, ?_⟩
  intro i h1 h2
  rcases hinv with ⟨hlen, hzip⟩
  have hz : i < ((ingestDocs embed C docs st).idx.zip (ingestDocs embed C docs st).meta).length := by
    rw [List.length_zip]; omega
  have hmem : ((ingestDocs embed C docs st).idx[i],
      (ingestDocs embed C docs st).meta[i])
      ∈ (ingestDocs embed C docs st).idx.zip (ingestDocs embed C docs st).meta := by
    have hx : ((ingestDocs embed C docs st).idx.zip (ingestDocs embed C docs st).meta)[i]
        = ((ingestDocs embed C docs st).idx[i], (ingestDocs embed C docs st).meta[i]) :=
      List.getElem_zip
    rw [← hx]
    exact List.getElem_mem hz
  exact hzip _ hmem

/-- Witness for C3 at a concrete input. -/
theorem index_meta_parallel_witness :
    IndexInv (fun l => l.length)
      (ingestDocs (fun l => l.length) 400 [("a".data, "hello world".data)] ⟨[], []⟩) :=
  (index_meta_parallel (fun l => l.length) 400 [("a".data, "hello world".data)] ⟨[], []⟩
    (by constructor <;> simp)).1

theorem countP_not_eq {α : Type} (p : α → Bool) (l : List α) :
    l.countP (fun a => !p a) = l.length - l.countP p := by
  induction l with
  | nil => simp
  | cons a l ih =>
    have hle := List.countP_le_length (p := p) (l := l)
    by_cases h : p a = true
    · simp [List.countP_cons, h, ih]
    · simp [List.countP_cons, h, ih]
      omega

/-- **C4.** Chunking postcondition: the document is cut into consecutive
non-overlapping windows (their concatenation is the document, every window but
the last is exactly `C` characters, all are non-empty and at most `C`); the
number of windows is `ceil(L/C)`; the index and metadata both grow by
`ceil(L/C)` minus the number of entirely-whitespace windows; and every appended
chunk text is non-empty and at most `C` characters long. -/
theorem chunking_postcondition {E : Type} (embed : List Char → E)
    (source txt : List Char) (C : Nat) (st : IndexState E) (hC : 0 < C) :
    ((chunksOf C txt).length = (txt.length + C - 1) / C)
    ∧ (chunksOf C txt).flatten = txt
    ∧ (∀ w ∈ (chunksOf C txt).dropLast, w.length = C)
    ∧ (∀ w ∈ chunksOf C txt, w ≠ [] ∧ w.length ≤ C)
    ∧ ((ingestDoc embed C source txt st).idx.length
        = st.idx.length + ((txt.length + C - 1) / C - (chunksOf C txt).countP allSpace))
    ∧ ((ingestDoc embed C source txt st).meta.length
        = st.meta.length + ((txt.length + C - 1) / C - (chunksOf C txt).countP allSpace))
    ∧ (∀ m ∈ (ingestDoc embed C source txt st).meta,
        m ∈ st.meta ∨ (m.text ≠ [] ∧ m.text.length ≤ C)) := by
  have hC0 : C ≠ 0 := Nat.pos_iff_ne_zero.mp hC
  have hlen := chunksOf_length hC0 txt
  have hcnt : (chunksOf C txt).countP (fun w => !allSpace w)
      = (txt.length + C - 1) / C - (chunksOf C txt).countP allSpace := by
    rw [countP_not_eq, hlen]
  rcases ingest_fold_lengths embed source (chunksOf C txt) st with ⟨hm, hi⟩
  refine ⟨hlen, chunksOf_flatten hC0 txt, chunksOf_dropLast_length hC0 txt,
    chunksOf_mem_length hC0 txt, ?_, ?_, ?_⟩
  · rw [ingestDoc, hi, hcnt]
  · rw [ingestDoc, hm, hcnt]
  · intro m hm2
    exact ingest_fold_meta_mem embed source C (chunksOf C txt) st
      (fun w hw => (chunksOf_mem_length hC0 txt w hw).2) m hm2

/-- Witness for C4 at a concrete input (the source's `CHUNK_SZ`). -/
theorem chunking_postcondition_witness :
    (chunksOf CHUNK_SZ "hello world".data).flatten = "hello world".data :=
  (chunking_postcondition (fun l => l.length) "x".data "hello world".data CHUNK_SZ
    ⟨[], []⟩ (by decide)).2.1

/-! ### Stub-API fetcher and budget backfill (`ingest.py` lines 30-116)

Items are the JSON dictionaries of the stub list; optional fields model
`dict.get`. Python's `x or y` on such fields short-circuits on truthiness
(`None` and `""` are falsy), which the `pyOrField`/`pyOrDefault` helpers
reproduce. -/

/-- Characters removed by `.replace(" ", "").replace(",", "")`. -/
def removeSpaceComma (l : List Char) : List Char :=
  l.filter (fun c => !(c == ' ' || c == ','))

/-- Modelled subset of Python `float(...)` on a cleaned string: optional sign,
digits with an optional decimal point (digits required on at least one side),
exact rational value. Exponents and special values never occur in the
pipeline's inputs; any other shape is a `ValueError`, i.e. `none`. -/
def parseFloatChars (l : List Char) : Option ℚ :=
  match l with
  | [] => none
  | c :: rest =>
    let sgn : ℚ := if c = '-' then -1 else 1
    let body : List Char := if c = '-' || c = '+' then rest else l
    let ip := body.takeWhile Char.isDigit
    let rest2 := body.dropWhile Char.isDigit
    match rest2 with
    | [] => if ip = [] then none else some (sgn * (digitsVal ip : ℚ))
    | '.' :: rest3 =>
      let fp := rest3.takeWhile Char.isDigit
      let rest4 := rest3.dropWhile Char.isDigit
      if rest4 = [] ∧ (ip ≠ [] ∨ fp ≠ []) then
        some (sgn * ((digitsVal ip : ℚ) + (digitsVal fp : ℚ) / (10 ^ fp.length)))
      else none
    | _ => none

/-- A JSON scalar as found in the stub items' `Budget` field. -/
inductive JVal where
  | jnull
  | jstr (s : String)
  | jnum (q : ℚ)
deriving DecidableEq, Repr

/-- `float(str(v).replace(" ", "").replace(",", ""))`: a numeric value converts
to itself (Python `str`/`float` round trip), a string goes through the cleaned
character model, `None` renders as `"None"` which `float` rejects. -/
def pyFloatOfVal : JVal → Option ℚ
  | .jnum q => some q
  | .jstr s => parseFloatChars (removeSpaceComma s.data)
  | .jnull => none

/-- Python membership test `v in (None, "", 0)` (equality-based; `0 == 0.0`). -/
def budgetFalsy : JVal → Bool
  | .jnull => true
  | .jstr s => s == ""
  | .jnum q => q == 0

/-- The stub items' `Id` field: an integer or any other JSON value
(`isinstance(cid, int)` guards the detail fetch). -/
inductive JId where
  | jint (n : Int)
  | jother
deriving DecidableEq, Repr

/-- One raw stub-API item (`dict.get` on absent keys gives `none`). -/
structure Item where
  Code : Option String := none
  callCode : Option String := none
  deadline_date : Option String := none
  EndDate : Option String := none
  call_title : Option String := none
  Title : Option String := none
  Budget : Option JVal := none
  Id : Option JId := none
deriving DecidableEq, Repr

/-- Truthiness of an optional string field (`None` and `""` are falsy). -/
def truthyOptStr : Option String → Bool
  | none => false
  | some s => s != ""

/-- Python `a or b` on two optional string fields. -/
def pyOrField (a b : Option String) : Option String :=
  if truthyOptStr a then a else b

/-- Python `(a or b or "")` on two optional string fields. -/
def pyOrDefault (a b : Option String) : String :=
  if truthyOptStr a then a.getD "" else if truthyOptStr b then b.getD "" else ""

/-- An XML element of the detail response: tag, text, children. -/
inductive XmlNode where
  | elem (tag : String) (text : Option String) (children : List XmlNode)

/-- The children of an element. -/
def XmlNode.childrenOf : XmlNode → List XmlNode
  | .elem _ _ cs => cs

/-- The text of an element. -/
def XmlNode.textOf : XmlNode → Option String
  | .elem _ t _ => t

/-- First element with tag `Budget` among a forest, in document (pre-)order:
the search performed by `root.find(".//Budget")`. -/
def findBudgetIn : List XmlNode → Option XmlNode
  | [] => none
  | n :: rest =>
    match n with
    | .elem tag _ children =>
      if tag = "Budget" then some (.elem tag (XmlNode.textOf n) children)
      else
        match findBudgetIn children with
        | some m => some m
        | none => findBudgetIn rest

/-- Outcome of the per-call detail GET inside `fetch_budget`: transport/HTTP
failure, a body `ET.fromstring` rejects, or a parsed document. -/
inductive DetailResp where
  | fail
  | badXml
  | xml (root : XmlNode)

/-- `fetch_budget` from `ingest.py`: every raise inside the `try` (transport,
HTTP error status, XML parse error, `float` conversion error) is swallowed and
yields `None`; otherwise the first `<Budget>` descendant's truthy text is
stripped, cleaned of spaces and commas, and converted. -/
def fetch_budget : DetailResp → Option ℚ
  | .fail => none
  | .badXml => none
  | .xml root =>
    match findBudgetIn (XmlNode.childrenOf root) with
    | none => none
    | some node =>
      match XmlNode.textOf node with
      | none => none
      | some t =>
        if t = "" then none
        else parseFloatChars (removeSpaceComma (pyStrip t.data))

/-- Step 1 of budget resolution in `scrape_api`: the `Budget` key must be
present with a value that is not `None`, `""` or `0`; conversion failures
inside the `try` yield `None`. -/
def stubBudget (it : Item) : Option ℚ :=
  match it.Budget with
  | none => none
  | some v => if budgetFalsy v then none else pyFloatOfVal v

/-- Budget resolution per item (steps 1-2 in `scrape_api`): stub field first,
then the detail XML keyed by the integer `Id`. `detail` maps a call id to the
detail endpoint's outcome for it. -/
def resolveBudget (detail : Int → DetailResp) (it : Item) : Option ℚ :=
  match stubBudget it with
  | some b => some b
  | none =>
    match it.Id with
    | some (.jint cid) => fetch_budget (detail cid)
    | _ => none

/-- One fetched record as appended to `rows` by `scrape_api`. The
`strftime("%d %b %Y")` / `strptime` round trip between `scrape_api` and the
merge step is the identity on the dates involved, so the record carries the
date itself. -/
structure Row where
  code : List Char
  title : List Char
  deadline : Date
  status : String
  budget : Option ℚ
deriving DecidableEq

/-- Body of the `for it in r.json()` loop in `scrape_api`; `none` models
`continue`. `today` is the module constant `TODAY` (`THIS_YEAR = TODAY.year`). -/
def processItem (today : Date) (detail : Int → DetailResp) (it : Item) : Option Row :=
  let raw := pyStrip (pyOrDefault it.Code it.callCode).data
  if raw = [] then none
  else
    match iso_to_date ((pyOrField it.deadline_date it.EndDate).map String.data) with
    | none => none
    | some ddl =>
      if ddl.year < today.year then none
      else
        some ⟨normalize_code raw,
          pyStrip (pyOrDefault it.call_title it.Title).data,
          ddl,
          if dateLe today ddl then "OPEN" else "CLOSED",
          resolveBudget detail it⟩

/-- Outcome of the stub-list GET: transport error (`requests.get` raising), or a
response with an HTTP status code, a `Content-Type` header value, and a JSON
body of items. -/
inductive ApiResp where
  | transportFail
  | resp (status : Nat) (contentType : String) (items : List Item)

/-- `requests.Response.raise_for_status` raises exactly for 4xx/5xx codes. -/
def raisesForStatus (status : Nat) : Bool :=
  decide (400 ≤ status ∧ status < 600)

/-- Containment of one character sequence in another (Python `in` on strings). -/
def containsSeq (needle : List Char) : List Char → Bool
  | [] => needle.isEmpty
  | c :: t => needle.isPrefixOf (c :: t) || containsSeq needle t

/-- What `scrape_api` persists to `fresh_deadlines.json` (`[]` on the failure
paths) and what it returns. -/
structure ScrapeResult where
  persisted : List Row
  returned : List Row
deriving DecidableEq

/-- `scrape_api` from `ingest.py`: transport errors and `raise_for_status`
raises are caught, and a `Content-Type` without `application/json` bails out;
both paths persist an empty list and return empty. Otherwise each item of the
JSON body goes through the per-item loop. -/
def scrape_api (today : Date) (detail : Int → DetailResp) : ApiResp → ScrapeResult
  | .transportFail => ⟨[], []⟩
  | .resp status ct items =>
    if raisesForStatus status then ⟨[], []⟩
    else if !containsSeq "application/json".data ct.data then ⟨[], []⟩
    else
      let rows := items.filterMap (processItem today detail)
      ⟨rows, rows⟩

/-- A detail map where every per-item detail fetch fails (used for concrete
instances; the discarding path never consults it). -/
def detailFail : Int → DetailResp := fun _ => .fail

/-- C5's spec-side retention predicate, transcribing the claim's words: an item
is kept exactly when it has a code under one of the two accepted field names
(non-whitespace once stripped), a parseable ISO deadline under one of the two
accepted field names, and that deadline's year is at least the current year. -/
def claimRetains (today : Date) (it : Item) : Prop :=
  (pyStrip (it.Code.getD "").data ≠ [] ∨ pyStrip (it.callCode.getD "").data ≠ [])
  ∧ ∃ d, (iso_to_date (it.deadline_date.map String.data) = some d
        ∨ iso_to_date (it.EndDate.map String.data) = some d)
      ∧ today.year ≤ d.year

/-- **C5 counterexample.** Python's `or` chains short-circuit on the first
truthy field: an item whose `deadline_date` is truthy but unparseable is
discarded even though `EndDate` holds a parseable in-year ISO deadline, and an
item whose `Code` is whitespace (truthy, stripping to empty) is discarded even
though `callCode` holds a code. Both items satisfy the claim's retention
condition yet contribute no record. -/
theorem stub_filter_counterexample :
    (claimRetains ⟨2025, 10, 12⟩
        { Code := some "ABC", deadline_date := some "garbage", EndDate := some "2026-01-01" }
      ∧ processItem ⟨2025, 10, 12⟩ detailFail
        { Code := some "ABC", deadline_date := some "garbage", EndDate := some "2026-01-01" }
        = none)
    ∧ (claimRetains ⟨2025, 10, 12⟩
        { Code := some "   ", callCode := some "ABC", deadline_date := some "2026-01-01" }
      ∧ processItem ⟨2025, 10, 12⟩ detailFail
        { Code := some "   ", callCode := some "ABC", deadline_date := some "2026-01-01" }
        = none) := by
  refine ⟨⟨⟨Or.inl (by decide), ⟨2026, 1, 1⟩, Or.inr (by decide), by decide⟩, by decide⟩,
    ⟨⟨Or.inr (by decide), ⟨2026, 1, 1⟩, Or.inl (by decide), by decide⟩, by decide⟩⟩

/-- **C5 amended.** Retention in `scrape_api`, with Python's short-circuit field
selection made explicit: the code field actually used is the first truthy of
`Code`/`callCode` and the deadline field actually used is the first truthy of
`deadline_date`/`EndDate`. An item yields a record exactly when the stripped
selected code is non-empty, the selected deadline parses as an ISO date, and
its year is at least the current year; the record's code is the normalized
stripped selected code. -/
theorem stub_filter_amended (today : Date) (detail : Int → DetailResp) (it : Item) :
    ((∃ r, processItem today detail it = some r)
      ↔ (pyStrip (pyOrDefault it.Code it.callCode).data ≠ []
          ∧ ∃ d, iso_to_date ((pyOrField it.deadline_date it.EndDate).map String.data)
                = some d
              ∧ today.year ≤ d.year))
    ∧ ∀ r, processItem today detail it = some r →
        r.code = normalize_code (pyStrip (pyOrDefault it.Code it.callCode).data) := by
  by_cases hraw : pyStrip (pyOrDefault it.Code it.callCode).data = []
  · constructor
    · simp [processItem, hraw]
    · intro r hr
      simp [processItem, hraw] at hr
  · rcases hddl : iso_to_date ((pyOrField it.deadline_date it.EndDate).map String.data)
        with _ | d
    · constructor
      · simp [processItem, hraw, hddl]
      · intro r hr
        simp [processItem, hraw, hddl] at hr
    · by_cases hy : d.year < today.year
      · constructor
        · simp [processItem, hraw, hddl, hy]
        · intro r hr
          simp [processItem, hraw, hddl, hy] at hr
      · constructor
        · simp [processItem, hraw, hddl, hy]
          omega
        · intro r hr
          simp [processItem, hraw, hddl, hy] at hr
          rw [← hr]

/-- Witness for the amended C5 at a concrete input. -/
theorem stub_filter_amended_witness :
    ∃ r, processItem ⟨2025, 10, 12⟩ detailFail
      { Code := some "PRIMA", deadline_date := some "2026-06-01" } = some r :=
  (stub_filter_amended ⟨2025, 10, 12⟩ detailFail
    { Code := some "PRIMA", deadline_date := some "2026-06-01" }).1.mpr
    ⟨by decide, ⟨2026, 6, 1⟩, by decide, by decide⟩

/-- C6's spec-side failure predicate, transcribing the claim: transport failure,
non-2xx HTTP status, or a content type that is not JSON. -/
def claimFetchFailure : ApiResp → Prop
  | .transportFail => True
  | .resp status ct _ =>
    ¬(200 ≤ status ∧ status < 300) ∨ containsSeq "application/json".data ct.data = false

/-- **C6 counterexample.** `raise_for_status` raises only for 4xx/5xx codes, so
a 300-status JSON response — non-2xx, hence a failure in the claim's sense — is
processed normally and produces a non-empty result instead of the empty-list
artifact. -/
theorem fetch_degradation_counterexample :
    claimFetchFailure (.resp 300 "application/json"
      [{ Code := some "PRIMA", deadline_date := some "2026-06-01" }])
    ∧ (scrape_api ⟨2025, 10, 12⟩ detailFail (.resp 300 "application/json"
        [{ Code := some "PRIMA", deadline_date := some "2026-06-01" }])).returned ≠ [] := by
  exact ⟨Or.inl (by omega), by decide⟩

/-- **C6 amended.** For every transport failure, every HTTP status in 400-599
(the statuses `raise_for_status` raises for), and every response whose content
type does not contain `application/json`, the fetch does not raise: it persists
an empty-list artifact and returns the empty list. -/
theorem fetch_degradation_amended (today : Date) (detail : Int → DetailResp) :
    scrape_api today detail .transportFail = ⟨[], []⟩
    ∧ (∀ status ct items, raisesForStatus status = true →
        scrape_api today detail (.resp status ct items) = ⟨[], []⟩)
    ∧ (∀ status ct items, containsSeq "application/json".data ct.data = false →
        scrape_api today detail (.resp status ct items) = ⟨[], []⟩) := by
  refine ⟨rfl, ?_, ?_⟩
  · intro s ct items h
    simp [scrape_api, h]
  · intro s ct items h
    by_cases hs : raisesForStatus s = true
    · simp [scrape_api, hs]
    · simp [scrape_api, hs, h]

/-- Witness for the amended C6 at a concrete input. -/
theorem fetch_degradation_amended_witness :
    scrape_api ⟨2025, 10, 12⟩ detailFail (.resp 404 "text/html" []) = ⟨[], []⟩ :=
  (fetch_degradation_amended ⟨2025, 10, 12⟩ detailFail).2.1 404 "text/html" [] (by decide)

/-- **C7.** Budget parsing: `"12,500.00"` and `"12 500.00"` both convert to
`12500`; a string the cleaned-float conversion rejects yields an absent budget;
a failed detail fetch and a malformed XML body also yield an absent budget, and
every path is a total function (no exception propagates). -/
theorem budget_parsing (s : String)
    (hs : parseFloatChars (removeSpaceComma s.data) = none) :
    pyFloatOfVal (.jstr "12,500.00") = some 12500
    ∧ pyFloatOfVal (.jstr "12 500.00") = some 12500
    ∧ pyFloatOfVal (.jstr s) = none
    ∧ fetch_budget .fail = none
    ∧ fetch_budget .badXml = none := by
  have e1 : pyFloatOfVal (.jstr "12,500.00")
      = some ((1 : ℚ) * ((digitsVal ['1', '2', '5', '0', '0'] : ℚ)
          + (digitsVal ['0', '0'] : ℚ) / 10 ^ (2 : ℕ))) := rfl
  have e2 : pyFloatOfVal (.jstr "12 500.00")
      = some ((1 : ℚ) * ((digitsVal ['1', '2', '5', '0', '0'] : ℚ)
          + (digitsVal ['0', '0'] : ℚ) / 10 ^ (2 : ℕ))) := rfl
  have e3 : digitsVal ['1', '2', '5', '0', '0'] = 12500 := by decide
  have e4 : digitsVal ['0', '0'] = 0 := by decide
  refine ⟨?_, ?_, ?_, rfl, rfl⟩
  · rw [e1, e3, e4]
    norm_num
  · rw [e2, e3, e4]
    norm_num
  · simp [pyFloatOfVal, hs]

/-- Witness for C7 at a concrete unparsable budget string. -/
theorem budget_parsing_witness : pyFloatOfVal (.jstr "abc") = none :=
  (budget_parsing "abc" (by decide)).2.2.1

/-- **C10.** A `Budget` field whose value is `None`, `""` or the number `0`
behaves exactly like an absent field: the stub-field step yields no budget, the
resolution falls through to the detail-endpoint fetch (absent if that fails),
and in particular a stub budget of exactly `0` never yields `0.0` from the stub
field. -/
theorem stub_budget_zero_falls_through (detail : Int → DetailResp) (it : Item)
    (h : it.Budget = some .jnull ∨ it.Budget = some (.jstr "") ∨ it.Budget = some (.jnum 0)) :
    stubBudget it = none
    ∧ resolveBudget detail it = resolveBudget detail { it with Budget := none }
    ∧ resolveBudget detail it = (match it.Id with
        | some (.jint cid) => fetch_budget (detail cid)
        | _ => none) := by
  have hb : stubBudget it = none := by
    rcases h with h | h | h <;> simp [stubBudget, h, budgetFalsy]
  have hb2 : stubBudget { it with Budget := none } = none := by
    simp [stubBudget]
  refine ⟨hb, ?_, ?_⟩
  · simp [resolveBudget, hb, hb2]
  · simp [resolveBudget, hb]

/-- Witness for C10 at a concrete item with stub budget exactly `0`. -/
theorem stub_budget_zero_falls_through_witness :
    stubBudget { Code := some "X", Budget := some (.jnum 0) } = none :=
  (stub_budget_zero_falls_through detailFail
    { Code := some "X", Budget := some (.jnum 0) } (Or.inr (Or.inr rfl))).1

/-! ### PDF deadline miner (`ingest.py` lines 121-158)

`KW_RE` is an alternation of case-insensitive literals and `DATE_RE` an
alternation of a numeric `D/M/YYYY`-family pattern and a `day month-name year`
pattern; both are modelled as explicit scanners with the regex engine's
leftmost-match, first-alternative, greedy-with-backtracking behaviour.
`dateparser.parse(...).date()` inside the set comprehension is modelled in
`parseAll`: a `None` parse makes `.date()` raise `AttributeError`, i.e.
`Except.error`. -/

/-- `WIN` from `ingest.py`. -/
def WIN : Nat := 300

/-- Case folding for `re.IGNORECASE`: ASCII letters plus the Greek letters
occurring in the keyword pattern (final sigma folds with sigma, as `re.I`
matches within a case family). Modelled subset of Unicode case folding. -/
def foldCase (c : Char) : Char :=
  if 65 ≤ c.toNat ∧ c.toNat ≤ 90 then Char.ofNat (c.toNat + 32)
  else if c = 'Π' then 'π' else if c = 'Ρ' then 'ρ' else if c = 'Ο' then 'ο'
  else if c = 'Θ' then 'θ' else if c = 'Ε' then 'ε' else if c = 'Σ' then 'σ'
  else if c = 'Μ' then 'μ' else if c = 'Λ' then 'λ' else if c = 'Ή' then 'ή'
  else if c = 'Ξ' then 'ξ' else if c = 'Η' then 'η' else if c = 'ς' then 'σ'
  else c

/-- Case-insensitive literal-prefix test. -/
def matchesCI (pat s : List Char) : Bool :=
  (pat.map foldCase).isPrefixOf (s.map foldCase)

/-- The alternatives of `KW_RE`, in the regex's order. -/
def kwAlts : List (List Char) :=
  ["deadline".data, "προθεσμ".data, "submission".data, "closing date".data, "λήξη".data]

/-- Length of the first keyword alternative matching at this position
(`re` alternation prefers the first alternative; all are literals). -/
def kwMatchLen (s : List Char) : Option Nat :=
  (kwAlts.find? (fun pat => matchesCI pat s)).map List.length

/-- Left-to-right non-overlapping scan of `KW_RE.finditer`, carrying the
current position and the characters still covered by the last match. -/
def kwScanGo : List Char → Nat → Nat → List (Nat × Nat)
  | [], _, _ => []
  | c :: rest, i, skip =>
    if skip > 0 then kwScanGo rest (i + 1) (skip - 1)
    else
      match kwMatchLen (c :: rest) with
      | some L => (i, i + L) :: kwScanGo rest (i + 1) (L - 1)
      | none => kwScanGo rest (i + 1) 0

/-- The `(start, end)` spans of all keyword matches in a text. -/
def kwSpans (txt : List Char) : List (Nat × Nat) :=
  kwScanGo txt 0 0

/-- The window `txt[max(0, start-WIN) : end+WIN]` around one keyword match. -/
def windowSlice (txt : List Char) (st en : Nat) : List Char :=
  (txt.drop (st - WIN)).take (en + WIN - (st - WIN))

/-- Greedy `\d{1,2}`: candidate `(consumed, value, rest)` triples in the
regex's backtracking order (two digits before one). -/
def dig12 : List Char → List (Nat × Nat × List Char)
  | a :: b :: rest =>
    if a.isDigit && b.isDigit then
      [(2, 10 * digitVal a + digitVal b, rest), (1, digitVal a, b :: rest)]
    else if a.isDigit then [(1, digitVal a, b :: rest)]
    else []
  | [a] => if a.isDigit then [(1, digitVal a, [])] else []
  | [] => []

/-- A dot, slash or dash date separator. -/
def isDateSep (c : Char) : Bool := c == '.' || c == '/' || c == '-'

/-- The `20\d{2}` year pattern. -/
def year20 : List Char → Option (Nat × List Char)
  | '2' :: '0' :: a :: b :: rest =>
    if a.isDigit && b.isDigit then some (2000 + 10 * digitVal a + digitVal b, rest)
    else none
  | _ => none

/-- First success of `f` along a list (the regex's alternative/backtracking
order). -/
def firstSome {α β : Type} (f : α → Option β) : List α → Option β
  | [] => none
  | a :: l =>
    match f a with
    | some b => some b
    | none => firstSome f l

/-- Match of the numeric alternative `\d{1,2} sep \d{1,2} sep 20\d{2}` (sep a dot, slash or dash) at the
head of `s`: `(length, first, second, year)`. -/
def matchNumericAt (s : List Char) : Option (Nat × Nat × Nat × Nat) :=
  firstSome (fun t1 =>
    match t1.2.2 with
    | sep1 :: s2 =>
      if isDateSep sep1 then
        firstSome (fun t2 =>
          match t2.2.2 with
          | sep2 :: s4 =>
            if isDateSep sep2 then
              match year20 s4 with
              | some p => some (t1.1 + 1 + t2.1 + 1 + 4, t1.2.1, t2.2.1, p.1)
              | none => none
            else none
          | [] => none) (dig12 s2)
      else none
    | [] => none) (dig12 s)

/-- The month-name alternatives of `DATE_RE`, each with the greedy optional
suffix expanded longest-first, in the regex's order. -/
def monthForms : List (List Char × Nat) :=
  [("january".data, 1), ("jan".data, 1),
   ("february".data, 2), ("feb".data, 2),
   ("march".data, 3), ("mar".data, 3),
   ("april".data, 4), ("apr".data, 4),
   ("may".data, 5),
   ("june".data, 6), ("jun".data, 6),
   ("july".data, 7), ("jul".data, 7),
   ("august".data, 8), ("aug".data, 8),
   ("september".data, 9), ("sept".data, 9), ("sep".data, 9),
   ("october".data, 10), ("oct".data, 10),
   ("november".data, 11), ("nov".data, 11),
   ("december".data, 12), ("dec".data, 12)]

/-- Greedy `\s+`: at least one whitespace character (maximal munch; every
continuation in `DATE_RE` starts with a non-whitespace character, so maximal
munch is exact). -/
def ws1 (s : List Char) : Option (Nat × List Char) :=
  let w := s.takeWhile pySpace
  if w.isEmpty then none else some (w.length, s.dropWhile pySpace)

/-- Match of the named alternative `\d{1,2}\s+(month)\s+20\d{2}` at the head
of `s`: `(length, day, month, year)`. -/
def matchNamedAt (s : List Char) : Option (Nat × Nat × Nat × Nat) :=
  firstSome (fun t1 =>
    match ws1 t1.2.2 with
    | none => none
    | some w1 =>
      firstSome (fun fm =>
        if matchesCI fm.1 w1.2 then
          match ws1 (w1.2.drop fm.1.length) with
          | none => none
          | some w2 =>
            match year20 w2.2 with
            | some p => some (t1.1 + w1.1 + fm.1.length + w2.1 + 4, t1.2.1, fm.2, p.1)
            | none => none
        else none) monthForms) (dig12 s)

/-- `DATE_RE` at the head of `s`: the numeric alternative is preferred. -/
def matchDateAt (s : List Char) : Option (Nat × Nat × Nat × Nat) :=
  match matchNumericAt s with
  | some r => some r
  | none => matchNamedAt s

/-- Left-to-right non-overlapping scan of `DATE_RE.finditer` over a window,
collecting the numeric components of each match. -/
def dateScanGo : List Char → Nat → List (Nat × Nat × Nat)
  | [], _ => []
  | c :: rest, skip =>
    if skip > 0 then dateScanGo rest (skip - 1)
    else
      match matchDateAt (c :: rest) with
      | some r => (r.2.1, r.2.2.1, r.2.2.2) :: dateScanGo rest (r.1 - 1)
      | none => dateScanGo rest 0

/-- All `DATE_RE` matches of a window. -/
def dateMatches (window : List Char) : List (Nat × Nat × Nat) :=
  dateScanGo window 0

/-- Modelled subset of `dateparser.parse(..., DATE_ORDER DMY).date()` on the
strings `DATE_RE` produces: the first component is the day and the second the
month (or the named month); the parse is `None` — modelled `none` — when the
components do not form a valid calendar date. -/
def parseDMY (d m y : Nat) : Option Date := mkValidDate y m d

/-- Evaluation of the `found` set comprehension: each raw match is parsed, and
a `None` parse makes the immediate `.date()` call raise `AttributeError`
(modelled `Except.error ()`), aborting the run. -/
def parseAll : List (Nat × Nat × Nat) → Except Unit (List Date)
  | [] => .ok []
  | r :: rest =>
    match parseDMY r.1 r.2.1 r.2.2 with
    | none => .error ()
    | some dd =>
      match parseAll rest with
      | .error e => .error e
      | .ok ds => .ok (dd :: ds)

/-- The dates contributing to the `found` set for one document text, in
comprehension order (keyword matches outer, window date matches inner). -/
def mineFound (txt : List Char) : Except Unit (List Date) :=
  parseAll ((kwSpans txt).flatMap (fun p => dateMatches (windowSlice txt p.1 p.2)))

/-- Insertion into a strictly ascending list, skipping duplicates; folding it
over the found dates yields `sorted(found)` for the set `found`. -/
def sortedInsert (d : Date) : List Date → List Date
  | [] => [d]
  | x :: xs =>
    if dateLt d x then d :: x :: xs
    else if d = x then x :: xs
    else x :: sortedInsert d xs

/-- `sorted(set(...))` of a list of dates. -/
def sortedDedup (ds : List Date) : List Date :=
  ds.foldl (fun acc d => sortedInsert d acc) []

/-- Per-document candidate deadlines: `sorted(found)[:2]`. -/
def pdfCandidates (txt : List Char) : Except Unit (List Date) :=
  match mineFound txt with
  | .error e => .error e
  | .ok ds => .ok ((sortedDedup ds).take 2)

theorem dateLt_trichotomy (a b : Date) : dateLt a b ∨ a = b ∨ dateLt b a := by
  obtain ⟨ay, am, ad⟩ := a; obtain ⟨by1, bm, bd⟩ := b
  simp only [dateLt, Date.mk.injEq]
  omega

theorem mem_sortedInsert {a d : Date} {l : List Date} :
    a ∈ sortedInsert d l ↔ a = d ∨ a ∈ l := by
  induction l with
  | nil => simp [sortedInsert]
  | cons x xs ih =>
    by_cases h1 : dateLt d x
    · simp [sortedInsert, h1]
    · by_cases h2 : d = x
      · subst h2
        have e : sortedInsert d (d :: xs) = d :: xs := by
          simp [sortedInsert, h1]
        rw [e, List.mem_cons]
        tauto
      · simp only [sortedInsert, if_neg h1, if_neg h2, List.mem_cons, ih]
        tauto

theorem pairwise_sortedInsert {d : Date} {l : List Date}
    (h : List.Pairwise dateLt l) : List.Pairwise dateLt (sortedInsert d l) := by
  induction l with
  | nil => simp [sortedInsert]
  | cons x xs ih =>
    rcases List.pairwise_cons.mp h with ⟨hx, hxs⟩
    by_cases h1 : dateLt d x
    · simp only [sortedInsert, if_pos h1]
      refine List.pairwise_cons.mpr ⟨?_, h⟩
      intro b hb
      rcases List.mem_cons.mp hb with rfl | hb
      · exact h1
      · exact dateLt_trans h1 (hx b hb)
    · by_cases h2 : d = x
      · simp only [sortedInsert, if_neg h1, if_pos h2]
        exact h
      · simp only [sortedInsert, if_neg h1, if_neg h2]
        refine List.pairwise_cons.mpr ⟨?_, ih hxs⟩
        intro b hb
        rcases mem_sortedInsert.mp hb with rfl | hb
        · rcases dateLt_trichotomy b x with h3 | h3 | h3
          · exact absurd h3 h1
          · exact absurd h3 h2
          · exact h3
        · exact hx b hb

theorem sortedDedup_fold (ds : List Date) :
    ∀ acc, List.Pairwise dateLt acc →
      List.Pairwise dateLt (ds.foldl (fun acc d => sortedInsert d acc) acc)
      ∧ ∀ a, a ∈ ds.foldl (fun acc d => sortedInsert d acc) acc ↔ a ∈ acc ∨ a ∈ ds := by
  induction ds with
  | nil => intro acc hacc; simpa using hacc
  | cons d ds ih =>
    intro acc hacc
    simp only [List.foldl_cons]
    rcases ih (sortedInsert d acc) (pairwise_sortedInsert hacc) with ⟨hp, hm⟩
    refine ⟨hp, ?_⟩
    intro a
    rw [hm a, mem_sortedInsert, List.mem_cons]
    tauto

theorem pairwise_sortedDedup (ds : List Date) :
    List.Pairwise dateLt (sortedDedup ds) :=
  (sortedDedup_fold ds [] (List.Pairwise.nil)).1

theorem mem_sortedDedup {ds : List Date} {a : Date} :
    a ∈ sortedDedup ds ↔ a ∈ ds := by
  rw [sortedDedup, (sortedDedup_fold ds [] (List.Pairwise.nil)).2 a]
  simp

/-- **C8.** Deadline mining selection: whenever the comprehension over keyword
windows completes with found dates `ds`, the per-document candidates are the
first two of the sorted distinct found dates: at most 2 of them, strictly
chronologically ordered, all found, and chronologically before every found
date that was not retained. A text containing `"Deadline: 15 March 2025"` with
the date inside the keyword window yields candidate date 2025-03-15. -/
theorem mining_selection (txt : List Char) (ds : List Date)
    (h : mineFound txt = .ok ds) :
    pdfCandidates txt = .ok ((sortedDedup ds).take 2)
    ∧ ((sortedDedup ds).take 2).length ≤ 2
    ∧ List.Pairwise dateLt ((sortedDedup ds).take 2)
    ∧ (∀ d ∈ (sortedDedup ds).take 2, d ∈ ds)
    ∧ (∀ d ∈ ds, d ∉ (sortedDedup ds).take 2 →
        ∀ c ∈ (sortedDedup ds).take 2, dateLt c d)
    ∧ pdfCandidates "Deadline: 15 March 2025".data = .ok [⟨2025, 3, 15⟩] := by
  refine ⟨by simp [pdfCandidates, h], ?_, ?_, ?_, ?_, rfl⟩
  · rw [List.length_take]
    exact Nat.min_le_left _ _
  · exact List.Pairwise.sublist (List.take_sublist 2 _) (pairwise_sortedDedup ds)
  · intro d hd
    exact mem_sortedDedup.mp ((List.take_sublist 2 _).subset hd)
  · intro d hd hnot c hc
    have hd2 : d ∈ sortedDedup ds := mem_sortedDedup.mpr hd
    have hsplit : sortedDedup ds = (sortedDedup ds).take 2 ++ (sortedDedup ds).drop 2 :=
      (List.take_append_drop 2 _).symm
    have hd3 : d ∈ (sortedDedup ds).take 2 ++ (sortedDedup ds).drop 2 := by
      rw [← hsplit]; exact hd2
    rcases List.mem_append.mp hd3 with hd4 | hd4
    · exact absurd hd4 hnot
    · have hp := pairwise_sortedDedup ds
      rw [hsplit] at hp
      exact (List.pairwise_append.mp hp).2.2 c hc d hd4

/-- Witness for C8 at a concrete input. -/
theorem mining_selection_witness :
    pdfCandidates "Deadline: 15 March 2025".data
      = .ok ((sortedDedup [⟨2025, 3, 15⟩]).take 2) :=
  (mining_selection "Deadline: 15 March 2025".data [⟨2025, 3, 15⟩] rfl).1

/-- **C9 (code bug).** The set comprehension calls `.date()` directly on
`dateparser.parse(...)` with no guard and no `try`: a window substring that
matches the numeric date pattern but is not a valid calendar date makes
`dateparser.parse` return `None`, so `.date()` raises `AttributeError` and the
run aborts instead of skipping the match — here on `"Deadline: 31/02/2025"`. -/
theorem miner_crash_on_invalid_date :
    parseDMY 31 2 2025 = none
    ∧ mineFound "Deadline: 31/02/2025".data = .error ()
    ∧ pdfCandidates "Deadline: 31/02/2025".data = .error () :=
  ⟨rfl, rfl, rfl⟩

/-! ### Merge engine (`ingest.py` lines 174-205)

Python `dict`s are insertion-ordered key-value lists: updating an existing key
keeps its position, a new key is appended; `latest.items()` iterates in that
order. `to_d` (the `strftime("%d %b %Y")`/`strptime` round trip between the
scraping/mining steps and the merge) is the identity on the dates involved, so
rows carry dates directly. -/

/-- One PDF-mined row `{"code": ..., "deadline": ...}`. -/
structure PdfRow where
  code : List Char
  deadline : Date
deriving DecidableEq

/-- `dict` lookup. -/
def kvGet {β : Type} (c : List Char) : List (List Char × β) → Option β
  | [] => none
  | p :: rest => if p.1 = c then some p.2 else kvGet c rest

/-- `dict` assignment: update in place if the key exists, else append. -/
def kvSet {β : Type} (c : List Char) (v : β) : List (List Char × β) → List (List Char × β)
  | [] => [(c, v)]
  | p :: rest => if p.1 = c then (c, v) :: rest else p :: kvSet c v rest

/-- Seeding `latest` from the PDF rows (`latest[r["code"]] = to_d(r["deadline"])`). -/
def seedPdf (rows : List PdfRow) : List (List Char × Date) :=
  rows.foldl (fun m r => kvSet r.code r.deadline m) []

/-- One API row's effect on `(latest, budgets)`: update the deadline when the
code is new or the API deadline is strictly later; record the budget keyed by
code whenever the row carries one. -/
def overlayStep (mb : List (List Char × Date) × List (List Char × ℚ)) (r : Row) :
    List (List Char × Date) × List (List Char × ℚ) :=
  let m2 := match kvGet r.code mb.1 with
    | none => kvSet r.code r.deadline mb.1
    | some cur => if dateLt cur r.deadline then kvSet r.code r.deadline mb.1 else mb.1
  let b2 := match r.budget with
    | some q => kvSet r.code q mb.2
    | none => mb.2
  (m2, b2)

/-- The `for r in fresh_rows` overlay loop. -/
def overlay (rows : List Row) (mb : List (List Char × Date) × List (List Char × ℚ)) :
    List (List Char × Date) × List (List Char × ℚ) :=
  rows.foldl overlayStep mb

/-- One merged record. -/
structure MRec where
  code : List Char
  deadline : Date
  status : String
  budget : Option ℚ
deriving DecidableEq

/-- Order on merged records used by `merged.sort(key=lambda x: to_d(x["deadline"]))`. -/
def recLe (a b : MRec) : Prop := dateLe a.deadline b.deadline

instance : DecidableRel recLe := fun a b => by unfold recLe; infer_instance

instance : IsTotal MRec recLe := ⟨fun a b => dateLe_total a.deadline b.deadline⟩

instance : IsTrans MRec recLe := ⟨fun _ _ _ => dateLe_trans⟩

/-- Building the merged list from `latest.items()` in insertion order. -/
def buildMerged (today : Date) (latest : List (List Char × Date))
    (budgets : List (List Char × ℚ)) : List MRec :=
  latest.map (fun p =>
    ⟨p.1, p.2, if dateLe today p.2 then "OPEN" else "CLOSED", kvGet p.1 budgets⟩)

/-- The whole merge step: seed from PDF rows, overlay the API rows, emit one
record per code and stable-sort ascending by deadline (Python's sort and
insertion sort are both stable, hence produce the same list). -/
def mergeAll (today : Date) (pdf_rows : List PdfRow) (fresh_rows : List Row) : List MRec :=
  let mb := overlay fresh_rows (seedPdf pdf_rows, [])
  List.insertionSort recLe (buildMerged today mb.1 mb.2)

/-- The override rule applied record by record: replace exactly when the code
is absent or the new deadline is strictly later than the recorded one. -/
def overrideFold (init : Option Date) (ds : List Date) : Option Date :=
  ds.foldl (fun cur d =>
    match cur with
    | none => some d
    | some x => if dateLt x d then some d else some x) init

theorem kvGet_kvSet_self {β : Type} (c : List Char) (v : β) (m : List (List Char × β)) :
    kvGet c (kvSet c v m) = some v := by
  induction m with
  | nil => simp [kvSet, kvGet]
  | cons p rest ih =>
    by_cases hp : p.1 = c
    · simp [kvSet, hp, kvGet]
    · simp [kvSet, hp, kvGet, ih]

theorem kvGet_kvSet_other {β : Type} {c k : List Char} (h : k ≠ c) (v : β)
    (m : List (List Char × β)) : kvGet k (kvSet c v m) = kvGet k m := by
  induction m with
  | nil =>
    have hne : ¬(c = k) := fun hh => h hh.symm
    simp [kvSet, kvGet, hne]
  | cons p rest ih =>
    by_cases hp : p.1 = c
    · rw [kvSet, if_pos hp, kvGet, kvGet, hp]
      have : ¬(c = k) := fun hh => h hh.symm
      simp [this]
    · rw [kvSet, if_neg hp, kvGet, kvGet, ih]

theorem kvGet_some_mem_keys {β : Type} {c : List Char} {v : β}
    {m : List (List Char × β)} (h : kvGet c m = some v) : c ∈ m.map Prod.fst := by
  induction m with
  | nil => exact Option.noConfusion h
  | cons p rest ih =>
    by_cases hp : p.1 = c
    · subst hp
      rw [List.map_cons]
      exact List.mem_cons_self _ _
    · rw [kvGet, if_neg hp] at h
      rw [List.map_cons]
      exact List.mem_cons_of_mem _ (ih h)

theorem overlayStep_fst_code (mb : List (List Char × Date) × List (List Char × ℚ))
    (r : Row) :
    kvGet r.code (overlayStep mb r).1
      = (match kvGet r.code mb.1 with
          | none => some r.deadline
          | some x => if dateLt x r.deadline then some r.deadline else some x) := by
  rcases hget : kvGet r.code mb.1 with _ | cur
  · simp only [overlayStep, hget]
    exact kvGet_kvSet_self _ _ _
  · simp only [overlayStep, hget]
    by_cases hlt : dateLt cur r.deadline
    · simp only [if_pos hlt]
      exact kvGet_kvSet_self _ _ _
    · simp only [if_neg hlt]
      exact hget

theorem overlayStep_fst_other {c : List Char}
    (mb : List (List Char × Date) × List (List Char × ℚ)) (r : Row)
    (h : r.code ≠ c) : kvGet c (overlayStep mb r).1 = kvGet c mb.1 := by
  have hne : c ≠ r.code := fun hh => h hh.symm
  rcases hget : kvGet r.code mb.1 with _ | cur
  · simp only [overlayStep, hget]
    exact kvGet_kvSet_other hne _ _
  · simp only [overlayStep, hget]
    by_cases hlt : dateLt cur r.deadline
    · simp only [if_pos hlt]
      exact kvGet_kvSet_other hne _ _
    · simp only [if_neg hlt]

theorem overlay_lookup (fresh : List Row) :
    ∀ (mb : List (List Char × Date) × List (List Char × ℚ)) (c : List Char),
      kvGet c (overlay fresh mb).1
        = overrideFold (kvGet c mb.1)
            ((fresh.filter (fun r => r.code = c)).map (fun r => r.deadline)) := by
  induction fresh with
  | nil => intro mb c; rfl
  | cons r rest ih =>
    intro mb c
    have hstep : overlay (r :: rest) mb = overlay rest (overlayStep mb r) := rfl
    rw [hstep, ih]
    by_cases hc : r.code = c
    · subst hc
      rw [overlayStep_fst_code]
      simp only [List.filter_cons, decide_True, List.map_cons]
      rcases hget : kvGet r.code mb.1 with _ | cur
    <;> simp [overrideFold, hget]
    · have hfil : (r :: rest).filter (fun q => q.code = c)
          = rest.filter (fun q => q.code = c) := by
        simp [List.filter_cons, hc]
      rw [hfil, overlayStep_fst_other mb r hc]

/-- **C1.** Merge override rule: for every code, the deadline recorded after the
overlay is the seeded PDF value transformed by the override rule applied to the
API records with that code, in order: replaced exactly when the code was absent
or the API deadline is strictly later than the currently recorded one. In
particular, PDF-mined 2025-01-10 for code `X` overlaid with API 2025-02-01 for
`X` produces the merged record `X` with deadline 2025-02-01. -/
theorem merge_override (pdf : List PdfRow) (fresh : List Row) (c : List Char) :
    kvGet c (overlay fresh (seedPdf pdf, [])).1
      = overrideFold (kvGet c (seedPdf pdf))
          ((fresh.filter (fun r => r.code = c)).map (fun r => r.deadline))
    ∧ (mergeAll ⟨2025, 10, 12⟩ [⟨"X".data, ⟨2025, 1, 10⟩⟩]
          [⟨"X".data, [], ⟨2025, 2, 1⟩, "OPEN", none⟩]).map
        (fun r => (r.code, r.deadline))
      = [("X".data, ⟨2025, 2, 1⟩)] :=
  ⟨overlay_lookup fresh (seedPdf pdf, []) c, rfl⟩

theorem mem_keys_kvSet {β : Type} {k c : List Char} (v : β) (m : List (List Char × β)) :
    k ∈ (kvSet c v m).map Prod.fst ↔ k = c ∨ k ∈ m.map Prod.fst := by
  induction m with
  | nil => simp [kvSet]
  | cons p rest ih =>
    by_cases hp : p.1 = c
    · subst hp
      have e : kvSet p.1 v (p :: rest) = (p.1, v) :: rest := by
        rw [kvSet, if_pos rfl]
      rw [e]
      simp only [List.map_cons, List.mem_cons]
      tauto
    · simp only [kvSet, if_neg hp, List.map_cons, List.mem_cons, ih]
      tauto

theorem nodup_keys_kvSet {β : Type} {c : List Char} (v : β) {m : List (List Char × β)}
    (h : (m.map Prod.fst).Nodup) : ((kvSet c v m).map Prod.fst).Nodup := by
  induction m with
  | nil => simp [kvSet]
  | cons p rest ih =>
    rw [List.map_cons, List.nodup_cons] at h
    by_cases hp : p.1 = c
    · subst hp
      have e : kvSet p.1 v (p :: rest) = (p.1, v) :: rest := by
        rw [kvSet, if_pos rfl]
      rw [e, List.map_cons, List.nodup_cons]
      exact ⟨h.1, h.2⟩
    · simp only [kvSet, if_neg hp, List.map_cons, List.nodup_cons]
      refine ⟨?_, ih h.2⟩
      rw [mem_keys_kvSet]
      rintro (hh | hh)
      · exact hp hh
      · exact h.1 hh

theorem seed_keys (rows : List PdfRow) :
    ∀ m : List (List Char × Date), (m.map Prod.fst).Nodup →
      (((rows.foldl (fun m r => kvSet r.code r.deadline m) m).map Prod.fst).Nodup
        ∧ ∀ c, c ∈ (rows.foldl (fun m r => kvSet r.code r.deadline m) m).map Prod.fst
            ↔ c ∈ m.map Prod.fst ∨ c ∈ rows.map (fun r => r.code)) := by
  induction rows with
  | nil =>
    intro m hm
    refine ⟨by simpa using hm, fun c => ?_⟩
    simp only [List.foldl_nil, List.map_nil, List.not_mem_nil, or_false]
  | cons r rest ih =>
    intro m hm
    simp only [List.foldl_cons]
    rcases ih (kvSet r.code r.deadline m) (nodup_keys_kvSet _ hm) with ⟨h1, h2⟩
    refine ⟨h1, ?_⟩
    intro c
    rw [h2 c, mem_keys_kvSet]
    simp only [List.map_cons, List.mem_cons]
    tauto

theorem seedPdf_keys (pdf : List PdfRow) :
    ((seedPdf pdf).map Prod.fst).Nodup
    ∧ ∀ c, c ∈ (seedPdf pdf).map Prod.fst ↔ c ∈ pdf.map (fun r => r.code) := by
  rcases seed_keys pdf [] (by simp) with ⟨h1, h2⟩
  refine ⟨h1, fun c => ?_⟩
  rw [seedPdf, h2 c]
  simp

theorem overlay_keys (rows : List Row) :
    ∀ mb : List (List Char × Date) × List (List Char × ℚ),
      (mb.1.map Prod.fst).Nodup →
        (((overlay rows mb).1.map Prod.fst).Nodup
          ∧ ∀ c, c ∈ (overlay rows mb).1.map Prod.fst
              ↔ c ∈ mb.1.map Prod.fst ∨ c ∈ rows.map (fun r => r.code)) := by
  induction rows with
  | nil =>
    intro mb hm
    refine ⟨hm, fun c => ?_⟩
    simp only [overlay, List.foldl_nil, List.map_nil, List.not_mem_nil, or_false]
  | cons r rest ih =>
    intro mb hm
    have hstep : overlay (r :: rest) mb = overlay rest (overlayStep mb r) := rfl
    rw [hstep]
    have hkeys : ∀ k, k ∈ (overlayStep mb r).1.map Prod.fst
        ↔ k = r.code ∨ k ∈ mb.1.map Prod.fst := by
      intro k
      rcases hget : kvGet r.code mb.1 with _ | cur
      · simp only [overlayStep, hget]
        exact mem_keys_kvSet _ _
      · simp only [overlayStep, hget]
        by_cases hlt : dateLt cur r.deadline
        · simp only [if_pos hlt]
          exact mem_keys_kvSet _ _
        · simp only [if_neg hlt]
          constructor
          · exact Or.inr
          · rintro (rfl | hk)
            · exact kvGet_some_mem_keys hget
            · exact hk
    have hnd : ((overlayStep mb r).1.map Prod.fst).Nodup := by
      rcases hget : kvGet r.code mb.1 with _ | cur
      · simp only [overlayStep, hget]
        exact nodup_keys_kvSet _ hm
      · simp only [overlayStep, hget]
        by_cases hlt : dateLt cur r.deadline
        · simp only [if_pos hlt]
          exact nodup_keys_kvSet _ hm
        · simp only [if_neg hlt]
          exact hm
    rcases ih (overlayStep mb r) hnd with ⟨h1, h2⟩
    refine ⟨h1, ?_⟩
    intro c
    rw [h2 c, hkeys c]
    simp only [List.map_cons, List.mem_cons]
    tauto

theorem buildMerged_codes (today : Date) (latest : List (List Char × Date))
    (budgets : List (List Char × ℚ)) :
    (buildMerged today latest budgets).map (fun r => r.code) = latest.map Prod.fst := by
  unfold buildMerged
  rw [List.map_map]
  rfl

/-- **C2.** The merged dataset is sorted ascending by deadline and contains
exactly one record per unique programme code: its code list is duplicate-free
and holds exactly the union of the PDF-mined codes and the API-fetched codes. -/
theorem merged_sorted_one_per_code (today : Date) (pdf : List PdfRow) (fresh : List Row) :
    List.Sorted recLe (mergeAll today pdf fresh)
    ∧ ((mergeAll today pdf fresh).map (fun r => r.code)).Nodup
    ∧ ∀ c, c ∈ (mergeAll today pdf fresh).map (fun r => r.code)
        ↔ (c ∈ pdf.map (fun p => p.code) ∨ c ∈ fresh.map (fun r => r.code)) := by
  have hseed := seedPdf_keys pdf
  have hover := overlay_keys fresh (seedPdf pdf, []) hseed.1
  have hme : mergeAll today pdf fresh
      = List.insertionSort recLe
          (buildMerged today (overlay fresh (seedPdf pdf, [])).1
            (overlay fresh (seedPdf pdf, [])).2) := rfl
  have hperm : List.Perm (mergeAll today pdf fresh)
      (buildMerged today (overlay fresh (seedPdf pdf, [])).1
        (overlay fresh (seedPdf pdf, [])).2) := by
    rw [hme]
    exact List.perm_insertionSort recLe _
  have hpermmap := hperm.map (fun r => r.code)
  have hbcodes := buildMerged_codes today (overlay fresh (seedPdf pdf, [])).1
    (overlay fresh (seedPdf pdf, [])).2
  refine ⟨?_, ?_, ?_⟩
  · rw [hme]
    exact List.sorted_insertionSort recLe _
  · refine hpermmap.nodup_iff.mpr ?_
    rw [hbcodes]
    exact hover.1
  · intro c
    rw [hpermmap.mem_iff, hbcodes, hover.2 c]
    rw [hseed.2 c]

end RIF
